import Mathlib

/-!
Verification of the Advanced_RAG chunking and batch-embedding pipeline.

The development shallowly embeds the two core modules:

* src/chunker.py (SmartChunker): sentence segmentation, token-budgeted
  chunk packing with sentence-level overlap, word-level splitting of
  oversized sentences, chunk-id assignment.
* src/Embeddings/batch_processor.py (BatchEmbeddingProcessor): resumable
  batch embedding with a checkpoint file.
* src/vector_strore/qdrant_store.py (QdrantStore.upsert_embeddings):
  sequential point-id assignment for vector uploads.

External collaborators are abstracted exactly as the code treats them:
the tokenizer (tiktoken) is an arbitrary function String -> Nat carried
in the chunker configuration; the embedding provider is an arbitrary
function List String -> Except e (List Vec); the checkpoint file is a
single structured record (Option Checkpoint models file absence); the
chunk database is the list it returns from get_all_chunks.
-/

namespace AdvancedRAG

/-! ## Python string helpers -/

/-- Model of Python str.split() (split on whitespace runs, dropping
empty pieces): accumulator holds the current word reversed. -/
def pySplitAux : List Char → List Char → List String
  | [], [] => []
  | [], acc => [String.mk acc.reverse]
  | c :: rest, acc =>
    if c.isWhitespace then
      (if acc.isEmpty then [] else [String.mk acc.reverse]) ++ pySplitAux rest []
    else
      pySplitAux rest (c :: acc)

/-- Python str.split() with no arguments. -/
def pySplit (s : String) : List String := pySplitAux s.data []

/-- Is the head of the character list whitespace? (models the regex
lookahead for the separator in split_text_by_sentences). -/
def headIsWS : List Char → Bool
  | c :: _ => c.isWhitespace
  | [] => false

/-- A sentence-terminating character, per the regex class [.!?]. -/
def isSentenceEnd (c : Char) : Bool :=
  c = '.' || c = '!' || c = '?'

/-- Model of re.split applied with the pattern that splits after a
sentence terminator followed by a whitespace run, the run being the
consumed separator.  The Boolean flag records that the scanner is in
the middle of consuming a separator whitespace run (during which the
accumulator is empty). -/
def splitRegexAux : List Char → List Char → Bool → List (List Char)
  | [], acc, _ => [acc.reverse]
  | c :: rest, acc, skipping =>
    if skipping && c.isWhitespace then
      splitRegexAux rest acc skipping
    else if isSentenceEnd c && headIsWS rest then
      (c :: acc).reverse :: splitRegexAux rest [] true
    else
      splitRegexAux rest (c :: acc) false

/-- Model of Python str.strip(): drop whitespace from both ends. -/
def pyStrip (s : String) : String :=
  String.mk
    (((s.data.dropWhile Char.isWhitespace).reverse.dropWhile
      Char.isWhitespace).reverse)

/-- SmartChunker.split_text_by_sentences: regex split, then strip each
piece and drop the empty ones. -/
def split_text_by_sentences (text : String) : List String :=
  ((splitRegexAux text.data [] false).map (fun l => pyStrip (String.mk l))).filter
    (fun s => s ≠ "")

/-- Python " ".join. -/
def joinSp : List String → String
  | [] => ""
  | [s] => s
  | s :: rest => s ++ " " ++ joinSp rest

/-! ## Chunker data model -/

/-- The metadata dictionary as read by _create_chunk: only the
page_number key is ever consulted.  none models an absent key,
some none a key present with value None, some (some n) an integer. -/
structure ChunkMetadata where
  page_number : Option (Option Int)
  deriving Repr, DecidableEq

/-- Rendering of metadata.get('page_number', 0) inside the f-string of
_create_chunk. -/
def pageKeyStr : Option (Option Int) → String
  | none => "0"
  | some none => "None"
  | some (some n) => toString n

/-- The chunk dictionary produced by SmartChunker._create_chunk. -/
structure Chunk where
  chunk_id : String
  text : String
  token_count : Nat
  char_count : Nat
  word_count : Nat
  source_page : Option Int
  metadata : ChunkMetadata
  deriving Repr, DecidableEq

/-- Chunker configuration: the tokenizer is the external tiktoken
encoding, abstracted as an arbitrary counting function. -/
structure ChunkerCfg where
  tok : String → Nat
  chunk_size : Nat
  overlap : Nat

/-- The chunk_id string "{page}_{seq}" built by _create_chunk. -/
def mkChunkId (meta : ChunkMetadata) (cid : Nat) : String :=
  pageKeyStr meta.page_number ++ "_" ++ toString cid

/-- SmartChunker._create_chunk. -/
def create_chunk (sentences : List String) (cid : Nat) (meta : ChunkMetadata)
    (token_count : Nat) : Chunk :=
  let text := joinSp sentences
  { chunk_id := mkChunkId meta cid
    text := text
    token_count := token_count
    char_count := text.length
    word_count := (pySplit text).length
    source_page := meta.page_number.getD none
    metadata := meta }

/-- Loop body of SmartChunker._get_overlap_text: walk the reversed
buffer, keeping sentences while the running total stays within the
overlap budget. -/
def overlapAux (cfg : ChunkerCfg) : List String → Nat → List String → List String
  | [], _, acc => acc
  | s :: rest, otoks, acc =>
    if otoks + cfg.tok s ≤ cfg.overlap then
      overlapAux cfg rest (otoks + cfg.tok s) (s :: acc)
    else acc

/-- SmartChunker._get_overlap_text (the total_tokens argument is unused
in the source as well). -/
def get_overlap_text (cfg : ChunkerCfg) (sentences : List String)
    (_total_tokens : Nat) : List String :=
  overlapAux cfg sentences.reverse 0 []

/-- Loop of SmartChunker._split_long_sentence over the words of the
oversized sentence. -/
def splitLongAux (cfg : ChunkerCfg) (meta : ChunkMetadata) :
    List String → List String → Nat → Nat → List Chunk
  | [], temp, ttoks, cid =>
    if temp.isEmpty then [] else [create_chunk [joinSp temp] cid meta ttoks]
  | w :: rest, temp, ttoks, cid =>
    let wt := cfg.tok (w ++ " ")
    if ttoks + wt > cfg.chunk_size then
      if temp.isEmpty then
        splitLongAux cfg meta rest [w] wt cid
      else
        create_chunk [joinSp temp] cid meta ttoks ::
          splitLongAux cfg meta rest [w] wt (cid + 1)
    else
      splitLongAux cfg meta rest (temp ++ [w]) (ttoks + wt) cid

/-- SmartChunker._split_long_sentence. -/
def split_long_sentence (cfg : ChunkerCfg) (sentence : String)
    (meta : ChunkMetadata) (start_chunk_id : Nat) : List Chunk :=
  splitLongAux cfg meta (pySplit sentence) [] 0 start_chunk_id

/-- Main loop of SmartChunker.chunk_text over the sentence sequence;
the state is the sentence buffer, its running token count, and the
chunk sequence counter. -/
def chunkTextAux (cfg : ChunkerCfg) (meta : ChunkMetadata) :
    List String → List String → Nat → Nat → List Chunk
  | [], cur, ctoks, cid =>
    if cur.isEmpty then [] else [create_chunk cur cid meta ctoks]
  | s :: rest, cur, ctoks, cid =>
    let st := cfg.tok s
    if st > cfg.chunk_size then
      if cur.isEmpty then
        let wcs := split_long_sentence cfg s meta cid
        wcs ++ chunkTextAux cfg meta rest cur ctoks (cid + wcs.length)
      else
        let wcs := split_long_sentence cfg s meta (cid + 1)
        create_chunk cur cid meta ctoks ::
          (wcs ++ chunkTextAux cfg meta rest [] 0 (cid + 1 + wcs.length))
    else if ctoks + st > cfg.chunk_size then
      let ov := get_overlap_text cfg cur ctoks
      let newCur := ov ++ [s]
      create_chunk cur cid meta ctoks ::
        chunkTextAux cfg meta rest newCur (cfg.tok (joinSp newCur)) (cid + 1)
    else
      chunkTextAux cfg meta rest (cur ++ [s]) (ctoks + st) cid

/-- SmartChunker.chunk_text. -/
def chunk_text (cfg : ChunkerCfg) (text : String) (meta : ChunkMetadata) :
    List Chunk :=
  chunkTextAux cfg meta (split_text_by_sentences text) [] 0 0

/-! ## Batch embedding processor (src/Embeddings/batch_processor.py)

The embedding provider is an arbitrary function returning Except (an
exception raised by generate_embeddings_batch after its internal
retries are exhausted is a terminal error).  The checkpoint file is
modelled as Option Checkpoint (none: the file does not exist); the
wall clock value passed for the timestamp is an abstract Nat. -/

deriving instance DecidableEq for Except

/-- A chunk row as returned by ChunkStorage.get_all_chunks, restricted
to the keys process_all_chunks reads. -/
structure ChunkRec where
  chunk_id : String
  text : String
  source_page : Option Int
  token_count : Nat
  deriving Repr, DecidableEq

/-- One element of embeddings_data built by process_all_chunks. -/
structure EmbeddingRecord (Vec : Type) where
  chunk_id : String
  embedding : Vec
  source_page : Option Int
  token_count : Nat
  deriving Repr, DecidableEq

/-- The checkpoint record.  The default record returned by
load_checkpoint when no file exists carries no timestamp key, hence
the Option. -/
structure Checkpoint where
  processed_chunk_ids : List String
  last_batch : Nat
  timestamp : Option Nat
  deriving Repr, DecidableEq

/-- The default checkpoint value of load_checkpoint (and of the
resume=False path of process_all_chunks). -/
def defaultCheckpoint : Checkpoint :=
  { processed_chunk_ids := [], last_batch := 0, timestamp := none }

/-- BatchEmbeddingProcessor.load_checkpoint. -/
def load_checkpoint (file : Option Checkpoint) : Checkpoint :=
  match file with
  | some c => c
  | none => defaultCheckpoint

/-- BatchEmbeddingProcessor.save_checkpoint: rewrites the whole file
with the given ids, batch number and the current time. -/
def save_checkpoint (processed_chunk_ids : List String) (batch_num : Nat)
    (now : Nat) : Option Checkpoint :=
  some { processed_chunk_ids := processed_chunk_ids, last_batch := batch_num,
         timestamp := some now }

/-- Python set.update on the processed-id set, the set being modelled
as a duplicate-free list. -/
def setInsertMany (s : List String) (new : List String) : List String :=
  new.foldl (fun acc i => if i ∈ acc then acc else acc ++ [i]) s

/-- Fuel-indexed loop behind sliceBatches; the fuel is an upper bound
on the list length and only guards termination (Python iterates the
start index over range(0, len, batch_size)). -/
def sliceBatchesFuel (bs : Nat) : Nat → List α → List (List α)
  | _, [] => []
  | 0, _ :: _ => []
  | fuel + 1, a :: l =>
    if bs = 0 then []
    else (a :: l).take bs :: sliceBatchesFuel bs fuel ((a :: l).drop bs)


/-- The slicing chunks_to_process[i:i+batch_size] for i in
range(0, len, batch_size). -/
def sliceBatches (bs : Nat) (l : List α) : List (List α) :=
  sliceBatchesFuel bs l.length l


/-- The result dictionary of process_all_chunks (the wall-clock timing
and provider usage statistics are external measurements and omitted).
skipped is an Int because Python computes it by unrestricted
subtraction. -/
structure ProcessResult (Vec : Type) where
  embeddings : List (EmbeddingRecord Vec)
  total_chunks : Nat
  processed : Nat
  skipped : Int
  embeddings_generated : Nat
  deriving Repr, DecidableEq

/-- The batch loop of process_all_chunks.  State: remaining batches,
current batch index, processed-id set, accumulated embeddings_data and
the checkpoint file.  On a provider error the checkpoint is saved with
the ids of the completed groups and the failing index, and the error
is propagated. -/
def processBatchesAux (embed : List String → Except ε (List Vec)) (now : Nat) :
    List (List ChunkRec) → Nat → List String → List (EmbeddingRecord Vec) →
    Option Checkpoint →
    Except ε (List (EmbeddingRecord Vec)) × List String × Option Checkpoint
  | [], _, processed, acc, file => (.ok acc, processed, file)
  | batch :: rest, batch_idx, processed, acc, file =>
    let texts := batch.map (fun c => c.text)
    let chunk_ids := batch.map (fun c => c.chunk_id)
    match embed texts with
    | .error e => (.error e, processed, save_checkpoint processed batch_idx now)
    | .ok embs =>
      let acc2 := acc ++ (batch.zip embs).map (fun p =>
        { chunk_id := p.1.chunk_id, embedding := p.2,
          source_page := p.1.source_page, token_count := p.1.token_count })
      let processed2 := setInsertMany processed chunk_ids
      let file2 := if (batch_idx + 1) % 10 = 0 then
          save_checkpoint processed2 (batch_idx + 1) now
        else file
      processBatchesAux embed now rest (batch_idx + 1) processed2 acc2 file2

/-- BatchEmbeddingProcessor.process_all_chunks.  all_chunks is what
storage.get_all_chunks returns; the checkpoint file state is threaded
explicitly and the updated file is returned alongside the result. -/
def process_all_chunks (embed : List String → Except ε (List Vec))
    (all_chunks : List ChunkRec) (batch_size : Nat) (resume : Bool)
    (now : Nat) (file : Option Checkpoint) :
    Except ε (ProcessResult Vec) × Option Checkpoint :=
  let checkpoint := if resume then load_checkpoint file else defaultCheckpoint
  let processed_ids := checkpoint.processed_chunk_ids.dedup
  let chunks_to_process :=
    all_chunks.filter (fun c => c.chunk_id ∉ processed_ids)
  if chunks_to_process.isEmpty then
    (.ok { embeddings := [], total_chunks := all_chunks.length,
           processed := all_chunks.length,
           skipped := (all_chunks.length : Int), embeddings_generated := 0 },
     file)
  else
    let batches := sliceBatches batch_size chunks_to_process
    match processBatchesAux embed now batches 0 processed_ids [] file with
    | (.error e, _, file2) => (.error e, file2)
    | (.ok acc, processed2, _) =>
      let file3 := save_checkpoint processed2 batches.length now
      (.ok { embeddings := acc, total_chunks := all_chunks.length,
             processed := acc.length,
             skipped := (processed2.length : Int) - (acc.length : Int),
             embeddings_generated := acc.length },
       file3)

/-! ## Qdrant vector store (src/vector_strore/qdrant_store.py) -/

/-- A PointStruct as built by QdrantStore.upsert_embeddings, with its
payload fields. -/
structure UploadPoint (Vec : Type) where
  id : Nat
  vector : Vec
  payload_chunk_id : String
  payload_source_page : Option Int
  payload_token_count : Nat
  deriving Repr, DecidableEq

/-- The batch-upload loop of upsert_embeddings: every point gets the
sequential id total_uploaded + idx; total_uploaded advances by the
batch length.  The points handed to client.upsert are accumulated. -/
def upsertBatchesAux : List (List (EmbeddingRecord Vec)) → Nat →
    List (UploadPoint Vec) → List (UploadPoint Vec) × Nat
  | [], total, acc => (acc, total)
  | batch :: rest, total, acc =>
    let points := batch.enum.map (fun p =>
      { id := total + p.1, vector := p.2.embedding,
        payload_chunk_id := p.2.chunk_id,
        payload_source_page := p.2.source_page,
        payload_token_count := p.2.token_count })
    upsertBatchesAux rest (total + points.length) (acc ++ points)

/-- QdrantStore.upsert_embeddings: returns the uploaded points (in
order of upload) and the returned total. -/
def upsert_embeddings (embeddings_data : List (EmbeddingRecord Vec))
    (batch_size : Nat) : List (UploadPoint Vec) × Nat :=
  upsertBatchesAux (sliceBatches batch_size embeddings_data) 0 []

/-! ## Concrete instances used by counterexamples and witnesses -/

/-- A concrete possible tokenizer: count occurrences of 'x'. -/
def xCount (s : String) : Nat := s.data.countP (fun c => c = 'x')

/-- A concrete possible tokenizer: count occurrences of '.'. -/
def dotCount (s : String) : Nat := s.data.countP (fun c => c = '.')

def cexCfg : ChunkerCfg := { tok := xCount, chunk_size := 3, overlap := 3 }

def cexMeta : ChunkMetadata := { page_number := none }

def cexText : String := "x x x. x x x. x x x."

def dotCfg : ChunkerCfg := { tok := dotCount, chunk_size := 2, overlap := 1 }

def dotText : String := "a. b. c. d. e."

/-- A concrete possible tokenizer: character count. -/
def lenCfg : ChunkerCfg := { tok := String.length, chunk_size := 4, overlap := 0 }

def lenText : String := "ab cd"

/-- Concrete run for the C2 witness: 25 chunks, group size 10, and a
provider failing permanently on the second group. -/
def wChunks : List ChunkRec :=
  (List.range 25).map (fun i =>
    { chunk_id := "c" ++ toString i, text := "c" ++ toString i,
      source_page := none, token_count := 1 })

def wEmbed (ts : List String) : Except Unit (List Nat) :=
  if "c10" ∈ ts then .error () else .ok (ts.map (fun _ => 0))

/-- Concrete records for the C8 witness. -/
def uA : EmbeddingRecord Nat :=
  { chunk_id := "a", embedding := 0, source_page := none, token_count := 1 }

def uB : EmbeddingRecord Nat :=
  { chunk_id := "b", embedding := 5, source_page := none, token_count := 2 }

/-- The chunk_id strings "{page}_{cid}", "{page}_{cid+1}", ... of n
consecutively emitted chunks. -/
def idsFrom (meta : ChunkMetadata) (cid n : Nat) : List String :=
  (List.range n).map (fun i => mkChunkId meta (cid + i))

/-- The processed-id set after completing a list of groups. -/
def insertAllGroups (p : List String) (gs : List (List ChunkRec)) : List String :=
  gs.foldl (fun acc b => setInsertMany acc (b.map (fun c => c.chunk_id))) p

/-! ## Token accounting properties of the chunker -/

/-- A tokenizer counts a space-joined list with at most the sum of the
counts of the pieces (true of word- and character-counting tokenizers,
and of sub-word tokenizers that do not split across the inserted
spaces). -/
def JoinSubadditive (cfg : ChunkerCfg) : Prop :=
  ∀ l : List String, l ≠ [] → cfg.tok (joinSp l) ≤ (l.map cfg.tok).sum

/-! ## Slicing lemmas -/

theorem sliceBatchesFuel_congr (bs : Nat) :
    ∀ (f1 f2 : Nat) (l : List α), l.length ≤ f1 → l.length ≤ f2 →
      sliceBatchesFuel bs f1 l = sliceBatchesFuel bs f2 l := by
  intro f1
  induction f1 with
  | zero =>
    intro f2 l h1 _
    have : l = [] := List.eq_nil_of_length_eq_zero (Nat.le_zero.mp h1)
    subst this
    cases f2 <;> rfl
  | succ g ih =>
    intro f2 l h1 h2
    cases l with
    | nil => cases f2 <;> rfl
    | cons a l' =>
      cases f2 with
      | zero => simp at h2
      | succ g2 =>
        simp only [sliceBatchesFuel]
        by_cases hbs : bs = 0
        · simp [hbs]
        · simp only [hbs, if_neg, ite_false]
          have hd : ((a :: l').drop bs).length ≤ g := by
            simp only [List.length_drop, List.length_cons]
            simp only [List.length_cons] at h1
            omega
          have hd2 : ((a :: l').drop bs).length ≤ g2 := by
            simp only [List.length_drop, List.length_cons]
            simp only [List.length_cons] at h2
            omega
          rw [ih g2 _ hd hd2]

/-- The defining recurrence of sliceBatches. -/
theorem sliceBatches_eq (bs : Nat) (l : List α) :
    sliceBatches bs l =
      if l.isEmpty then []
      else if bs = 0 then []
      else l.take bs :: sliceBatches bs (l.drop bs) := by
  cases l with
  | nil => rfl
  | cons a l' =>
    simp only [sliceBatches, List.length_cons, sliceBatchesFuel, List.isEmpty_cons,
      Bool.false_eq_true, if_false]
    by_cases hbs : bs = 0
    · simp [hbs]
    · simp only [hbs, ite_false]
      rw [sliceBatchesFuel_congr bs l'.length ((a :: l').drop bs).length _ _ rfl.le]
      simp only [List.length_drop, List.length_cons]
      omega

/-! ## Chunk-id sequence lemmas -/


theorem idsFrom_zero (meta : ChunkMetadata) (cid : Nat) :
    idsFrom meta cid 0 = [] := rfl

theorem idsFrom_succ (meta : ChunkMetadata) (cid n : Nat) :
    idsFrom meta cid (n + 1) = mkChunkId meta cid :: idsFrom meta (cid + 1) n := by
  simp only [idsFrom, List.range_succ_eq_map, List.map_cons, Nat.add_zero, List.map_map]
  congr 1
  apply List.map_congr_left
  intro i _
  simp only [Function.comp_apply]
  congr 1
  omega

theorem idsFrom_append (meta : ChunkMetadata) (cid a b : Nat) :
    idsFrom meta cid (a + b) = idsFrom meta cid a ++ idsFrom meta (cid + a) b := by
  simp only [idsFrom, List.range_add, List.map_append, List.map_map]
  congr 1
  apply List.map_congr_left
  intro i _
  simp only [Function.comp_apply]
  congr 1
  omega

theorem create_chunk_id (sentences : List String) (cid : Nat)
    (meta : ChunkMetadata) (tc : Nat) :
    (create_chunk sentences cid meta tc).chunk_id = mkChunkId meta cid := rfl

theorem splitLongAux_ids (cfg : ChunkerCfg) (meta : ChunkMetadata) :
    ∀ (ws temp : List String) (tt cid : Nat),
      (splitLongAux cfg meta ws temp tt cid).map Chunk.chunk_id =
        idsFrom meta cid (splitLongAux cfg meta ws temp tt cid).length := by
  intro ws
  induction ws with
  | nil =>
    intro temp tt cid
    by_cases h : temp.isEmpty <;>
      simp [splitLongAux, h, idsFrom_zero, idsFrom_succ, create_chunk_id]
  | cons w rest ih =>
    intro temp tt cid
    simp only [splitLongAux]
    by_cases h1 : tt + cfg.tok (w ++ " ") > cfg.chunk_size
    · rw [if_pos h1]
      by_cases h2 : temp.isEmpty
      · rw [if_pos h2]
        exact ih [w] (cfg.tok (w ++ " ")) cid
      · rw [if_neg h2, List.map_cons, create_chunk_id,
          ih [w] (cfg.tok (w ++ " ")) (cid + 1), List.length_cons, idsFrom_succ]
    · rw [if_neg h1]
      exact ih (temp ++ [w]) (tt + cfg.tok (w ++ " ")) cid

theorem split_long_sentence_ids (cfg : ChunkerCfg) (s : String)
    (meta : ChunkMetadata) (cid : Nat) :
    (split_long_sentence cfg s meta cid).map Chunk.chunk_id =
      idsFrom meta cid (split_long_sentence cfg s meta cid).length :=
  splitLongAux_ids cfg meta (pySplit s) [] 0 cid

theorem chunkTextAux_ids (cfg : ChunkerCfg) (meta : ChunkMetadata) :
    ∀ (ss cur : List String) (ct cid : Nat),
      (chunkTextAux cfg meta ss cur ct cid).map Chunk.chunk_id =
        idsFrom meta cid (chunkTextAux cfg meta ss cur ct cid).length := by
  intro ss
  induction ss with
  | nil =>
    intro cur ct cid
    by_cases h : cur.isEmpty <;>
      simp [chunkTextAux, h, idsFrom_zero, idsFrom_succ, create_chunk_id]
  | cons s rest ih =>
    intro cur ct cid
    simp only [chunkTextAux]
    by_cases h1 : cfg.tok s > cfg.chunk_size
    · rw [if_pos h1]
      by_cases h2 : cur.isEmpty
      · rw [if_pos h2, List.map_append, List.length_append,
          split_long_sentence_ids, ih, idsFrom_append]
      · rw [if_neg h2, List.map_cons, List.map_append, create_chunk_id,
          split_long_sentence_ids, ih, List.length_cons, List.length_append,
          idsFrom_succ, idsFrom_append]
    · rw [if_neg h1]
      by_cases h2 : ct + cfg.tok s > cfg.chunk_size
      · rw [if_pos h2, List.map_cons, create_chunk_id, ih,
          List.length_cons, idsFrom_succ]
      · rw [if_neg h2]
        exact ih (cur ++ [s]) (ct + cfg.tok s) cid

theorem chunk_text_ids (cfg : ChunkerCfg) (text : String) (meta : ChunkMetadata) :
    (chunk_text cfg text meta).map Chunk.chunk_id =
      idsFrom meta 0 (chunk_text cfg text meta).length :=
  chunkTextAux_ids cfg meta (split_text_by_sentences text) [] 0 0

theorem splitLongAux_meta (cfg : ChunkerCfg) (meta : ChunkMetadata) :
    ∀ (ws temp : List String) (tt cid : Nat),
      ∀ c ∈ splitLongAux cfg meta ws temp tt cid,
        c.metadata = meta ∧ c.source_page = meta.page_number.getD none := by
  intro ws
  induction ws with
  | nil =>
    intro temp tt cid c hc
    by_cases h : temp.isEmpty <;> simp [splitLongAux, h] at hc
    subst hc
    exact ⟨rfl, rfl⟩
  | cons w rest ih =>
    intro temp tt cid c hc
    simp only [splitLongAux] at hc
    by_cases h1 : tt + cfg.tok (w ++ " ") > cfg.chunk_size
    · rw [if_pos h1] at hc
      by_cases h2 : temp.isEmpty
      · rw [if_pos h2] at hc
        exact ih [w] _ cid c hc
      · rw [if_neg h2, List.mem_cons] at hc
        rcases hc with hc | hc
        · subst hc
          exact ⟨rfl, rfl⟩
        · exact ih [w] _ (cid + 1) c hc
    · rw [if_neg h1] at hc
      exact ih (temp ++ [w]) _ cid c hc

theorem chunkTextAux_meta (cfg : ChunkerCfg) (meta : ChunkMetadata) :
    ∀ (ss cur : List String) (ct cid : Nat),
      ∀ c ∈ chunkTextAux cfg meta ss cur ct cid,
        c.metadata = meta ∧ c.source_page = meta.page_number.getD none := by
  intro ss
  induction ss with
  | nil =>
    intro cur ct cid c hc
    by_cases h : cur.isEmpty <;> simp [chunkTextAux, h] at hc
    subst hc
    exact ⟨rfl, rfl⟩
  | cons s rest ih =>
    intro cur ct cid c hc
    simp only [chunkTextAux] at hc
    by_cases h1 : cfg.tok s > cfg.chunk_size
    · rw [if_pos h1] at hc
      by_cases h2 : cur.isEmpty
      · rw [if_pos h2, List.mem_append] at hc
        rcases hc with hc | hc
        · exact splitLongAux_meta cfg meta _ [] 0 cid c hc
        · exact ih cur ct _ c hc
      · rw [if_neg h2, List.mem_cons] at hc
        rcases hc with hc | hc
        · subst hc
          exact ⟨rfl, rfl⟩
        · rw [List.mem_append] at hc
          rcases hc with hc | hc
          · exact splitLongAux_meta cfg meta _ [] 0 (cid + 1) c hc
          · exact ih [] 0 _ c hc
    · rw [if_neg h1] at hc
      by_cases h2 : ct + cfg.tok s > cfg.chunk_size
      · rw [if_pos h2, List.mem_cons] at hc
        rcases hc with hc | hc
        · subst hc
          exact ⟨rfl, rfl⟩
        · exact ih _ _ _ c hc
      · rw [if_neg h2] at hc
        exact ih (cur ++ [s]) _ cid c hc

/-- C4: chunking is deterministic in its inputs, and the emitted
chunk_id values are "{page}_{i}" for i = 0, 1, 2, ... in emission
order. -/
theorem chunk_ids_deterministic_and_sequential (cfg : ChunkerCfg)
    (t1 t2 : String) (m1 m2 : ChunkMetadata) (ht : t1 = t2) (hm : m1 = m2) :
    chunk_text cfg t1 m1 = chunk_text cfg t2 m2 ∧
    (chunk_text cfg t1 m1).map Chunk.chunk_id =
      (List.range (chunk_text cfg t1 m1).length).map
        (fun i => pageKeyStr m1.page_number ++ "_" ++ toString i) := by
  constructor
  · rw [ht, hm]
  · rw [chunk_text_ids]
    simp [idsFrom, mkChunkId]

/-- Witness for chunk_ids_deterministic_and_sequential at a concrete
input. -/
theorem chunk_ids_deterministic_and_sequential_witness :
    chunk_text cexCfg cexText cexMeta = chunk_text cexCfg cexText cexMeta ∧
    (chunk_text cexCfg cexText cexMeta).map Chunk.chunk_id =
      (List.range (chunk_text cexCfg cexText cexMeta).length).map
        (fun i => pageKeyStr cexMeta.page_number ++ "_" ++ toString i) :=
  chunk_ids_deterministic_and_sequential cexCfg cexText cexText cexMeta cexMeta
    rfl rfl

/-- C10: when the metadata lacks the page_number key, every chunk_id
is prefixed "0_" and source_page is None; chunks of two distinct such
source units coincide positionally in chunk_id. -/
theorem absent_page_number_ids_collide (cfg : ChunkerCfg) (t1 t2 : String)
    (m : ChunkMetadata) (hm : m.page_number = none) :
    (∀ c ∈ chunk_text cfg t1 m,
      (∃ k : Nat, c.chunk_id = "0_" ++ toString k) ∧ c.source_page = none) ∧
    (∀ i (h1 : i < (chunk_text cfg t1 m).length)
        (h2 : i < (chunk_text cfg t2 m).length),
      ((chunk_text cfg t1 m)[i]).chunk_id = ((chunk_text cfg t2 m)[i]).chunk_id) := by
  have hid : ∀ t : String, ∀ i (h : i < (chunk_text cfg t m).length),
      ((chunk_text cfg t m)[i]).chunk_id = "0_" ++ toString i := by
    intro t i h
    have hmap := chunk_text_ids cfg t m
    have h4 : ((chunk_text cfg t m).map Chunk.chunk_id)[i]? =
        (idsFrom m 0 (chunk_text cfg t m).length)[i]? := by rw [hmap]
    rw [List.getElem?_map, List.getElem?_eq_getElem h, Option.map_some'] at h4
    simp only [idsFrom, List.getElem?_map, List.getElem?_range h,
      Option.map_some'] at h4
    have h5 := Option.some.inj h4
    rw [h5]
    simp [mkChunkId, hm, pageKeyStr]
  constructor
  · intro c hc
    refine ⟨?_, ?_⟩
    · rcases List.mem_iff_getElem.mp hc with ⟨i, h, rfl⟩
      exact ⟨i, hid t1 i h⟩
    · rw [(chunkTextAux_meta cfg m _ [] 0 0 c hc).2, hm]
      rfl
  · intro i h1 h2
    rw [hid t1 i h1, hid t2 i h2]

/-- Witness for absent_page_number_ids_collide at concrete distinct
source units. -/
theorem absent_page_number_ids_collide_witness :
    (∀ c ∈ chunk_text cexCfg cexText cexMeta,
      (∃ k : Nat, c.chunk_id = "0_" ++ toString k) ∧ c.source_page = none) ∧
    (∀ i (h1 : i < (chunk_text cexCfg cexText cexMeta).length)
        (h2 : i < (chunk_text cexCfg lenText cexMeta).length),
      ((chunk_text cexCfg cexText cexMeta)[i]).chunk_id =
        ((chunk_text cexCfg lenText cexMeta)[i]).chunk_id) :=
  absent_page_number_ids_collide cexCfg cexText lenText cexMeta rfl

/-! ## Words produced by pySplit -/

theorem pySplitAux_words : ∀ (l acc : List Char),
    (∀ c ∈ acc, c.isWhitespace = false) →
    ∀ w ∈ pySplitAux l acc, w.data ≠ [] ∧ ∀ c ∈ w.data, c.isWhitespace = false := by
  intro l
  induction l with
  | nil =>
    intro acc hacc w hw
    cases acc with
    | nil => simp [pySplitAux] at hw
    | cons a as =>
      simp only [pySplitAux, List.mem_singleton] at hw
      subst hw
      refine ⟨by simp, ?_⟩
      intro c hc
      exact hacc c (List.mem_reverse.mp hc)
  | cons c rest ih =>
    intro acc hacc w hw
    simp only [pySplitAux] at hw
    by_cases hws : c.isWhitespace
    · rw [if_pos hws, List.mem_append] at hw
      rcases hw with hw | hw
      · by_cases hae : acc.isEmpty
        · rw [if_pos hae] at hw
          simp at hw
        · rw [if_neg hae, List.mem_singleton] at hw
          subst hw
          have hne : acc ≠ [] := by
            intro h
            rw [h] at hae
            simp at hae
          refine ⟨by simpa, ?_⟩
          intro d hd
          exact hacc d (List.mem_reverse.mp hd)
      · exact ih [] (by simp) w hw
    · rw [if_neg hws] at hw
      refine ih (c :: acc) ?_ w hw
      intro d hd
      rcases List.mem_cons.mp hd with h | h
      · subst h
        simpa using hws
      · exact hacc d h

theorem pySplitAux_single : ∀ (l acc : List Char),
    (∀ c ∈ l, c.isWhitespace = false) → (l ≠ [] ∨ acc ≠ []) →
    pySplitAux l acc = [String.mk (acc.reverse ++ l)] := by
  intro l
  induction l with
  | nil =>
    intro acc _ hne
    rcases hne with h | h
    · exact absurd rfl h
    · cases acc with
      | nil => exact absurd rfl h
      | cons a as => simp [pySplitAux]
  | cons c rest ih =>
    intro acc hl _
    have hc : c.isWhitespace = false := hl c (List.mem_cons_self c rest)
    simp only [pySplitAux, hc, Bool.false_eq_true, if_false]
    rw [ih (c :: acc) (fun d hd => hl d (List.mem_cons_of_mem c hd)) (Or.inr (by simp))]
    simp

theorem string_mk_data (s : String) : String.mk s.data = s := rfl

/-- A word returned by pySplit splits to just itself. -/
theorem pySplit_word (s w : String) (hw : w ∈ pySplit s) : pySplit w = [w] := by
  have h := pySplitAux_words s.data [] (by simp) w hw
  unfold pySplit
  rw [pySplitAux_single w.data [] h.2 (Or.inl h.1)]
  simp [string_mk_data]

/-! ## Overlap selection -/

theorem overlapAux_sum (cfg : ChunkerCfg) : ∀ (l : List String) (otoks : Nat)
    (acc : List String), (acc.map cfg.tok).sum = otoks → otoks ≤ cfg.overlap →
    ((overlapAux cfg l otoks acc).map cfg.tok).sum ≤ cfg.overlap := by
  intro l
  induction l with
  | nil =>
    intro otoks acc hsum hle
    simpa [overlapAux, hsum]
  | cons s rest ih =>
    intro otoks acc hsum hle
    simp only [overlapAux]
    by_cases h : otoks + cfg.tok s ≤ cfg.overlap
    · rw [if_pos h]
      refine ih (otoks + cfg.tok s) (s :: acc) ?_ h
      simp [hsum]
      omega
    · rw [if_neg h]
      simpa [hsum]

theorem get_overlap_text_sum (cfg : ChunkerCfg) (cur : List String) (ct : Nat) :
    ((get_overlap_text cfg cur ct).map cfg.tok).sum ≤ cfg.overlap :=
  overlapAux_sum cfg cur.reverse 0 [] (by simp) (Nat.zero_le _)

theorem overlapAux_take (cfg : ChunkerCfg) : ∀ (l : List String) (otoks : Nat)
    (acc : List String), ∃ k, overlapAux cfg l otoks acc = (l.take k).reverse ++ acc := by
  intro l
  induction l with
  | nil =>
    intro otoks acc
    exact ⟨0, by simp [overlapAux]⟩
  | cons s rest ih =>
    intro otoks acc
    simp only [overlapAux]
    by_cases h : otoks + cfg.tok s ≤ cfg.overlap
    · rw [if_pos h]
      rcases ih (otoks + cfg.tok s) (s :: acc) with ⟨k, hk⟩
      refine ⟨k + 1, ?_⟩
      rw [hk]
      simp [List.take_succ_cons]
    · rw [if_neg h]
      exact ⟨0, by simp⟩

/-- The overlap tail is a suffix of the flushed buffer. -/
theorem get_overlap_text_suffix (cfg : ChunkerCfg) (cur : List String) (ct : Nat) :
    ∃ m, get_overlap_text cfg cur ct = cur.drop m := by
  rcases overlapAux_take cfg cur.reverse 0 [] with ⟨k, hk⟩
  refine ⟨cur.length - k, ?_⟩
  unfold get_overlap_text
  rw [hk, List.append_nil, List.reverse_take]
  simp

/-! ## Joining sentences -/

theorem joinSp_single (s : String) : joinSp [s] = s := rfl

theorem joinSp_cons (s : String) (l : List String) (h : l ≠ []) :
    joinSp (s :: l) = s ++ " " ++ joinSp l := by
  cases l with
  | nil => exact absurd rfl h
  | cons b l' => rfl

theorem joinSp_append (l1 l2 : List String) (h1 : l1 ≠ []) (h2 : l2 ≠ []) :
    joinSp (l1 ++ l2) = joinSp l1 ++ " " ++ joinSp l2 := by
  induction l1 with
  | nil => exact absurd rfl h1
  | cons a l1' ih =>
    cases l1' with
    | nil =>
      rw [List.singleton_append, joinSp_cons a l2 h2, joinSp_single]
    | cons b l1'' =>
      rw [List.cons_append, joinSp_cons a ((b :: l1'') ++ l2) (by simp),
        joinSp_cons a (b :: l1'') (by simp), ih (by simp)]
      simp [String.append_assoc]

theorem joinSp_prefix (l1 l2 : List String) :
    (joinSp l1).data <+: (joinSp (l1 ++ l2)).data := by
  cases hl1 : l1 with
  | nil => simp [joinSp]
  | cons a l1' =>
    cases hl2 : l2 with
    | nil => simp
    | cons b l2' =>
      rw [← hl1, ← hl2, joinSp_append l1 l2 (by rw [hl1]; simp) (by rw [hl2]; simp)]
      rw [String.data_append, String.data_append]
      rw [List.append_assoc]
      exact List.prefix_append _ _

/-! ## The token budget (C1) -/

theorem create_chunk_token_count (ss : List String) (cid : Nat)
    (meta : ChunkMetadata) (tt : Nat) :
    (create_chunk ss cid meta tt).token_count = tt := rfl

theorem create_chunk_text (ss : List String) (cid : Nat)
    (meta : ChunkMetadata) (tt : Nat) :
    (create_chunk ss cid meta tt).text = joinSp ss := rfl

theorem create_chunk_word_count (ss : List String) (cid : Nat)
    (meta : ChunkMetadata) (tt : Nat) :
    (create_chunk ss cid meta tt).word_count = (pySplit (joinSp ss)).length := rfl

theorem splitLongAux_bound (cfg : ChunkerCfg) (meta : ChunkMetadata) :
    ∀ (ws temp : List String) (tt cid : Nat),
      (temp ≠ [] → tt ≤ cfg.chunk_size ∨
        ∃ w, temp = [w] ∧ pySplit w = [w] ∧ cfg.chunk_size < tt) →
      (∀ w ∈ ws, pySplit w = [w]) →
      ∀ c ∈ splitLongAux cfg meta ws temp tt cid,
        c.token_count ≤ cfg.chunk_size ∨
          (c.word_count = 1 ∧ cfg.chunk_size < c.token_count) := by
  have emit : ∀ (temp : List String) (tt cid : Nat),
      (temp ≠ [] → tt ≤ cfg.chunk_size ∨
        ∃ w, temp = [w] ∧ pySplit w = [w] ∧ cfg.chunk_size < tt) →
      temp ≠ [] →
      (create_chunk [joinSp temp] cid meta tt).token_count ≤ cfg.chunk_size ∨
        ((create_chunk [joinSp temp] cid meta tt).word_count = 1 ∧
          cfg.chunk_size < (create_chunk [joinSp temp] cid meta tt).token_count) := by
    intro temp tt cid hinv hne
    rcases hinv hne with h | ⟨w, htemp, hpw, hlt⟩
    · left
      rwa [create_chunk_token_count]
    · right
      rw [create_chunk_word_count, create_chunk_token_count]
      subst htemp
      rw [joinSp_single, joinSp_single, hpw]
      exact ⟨rfl, hlt⟩
  intro ws
  induction ws with
  | nil =>
    intro temp tt cid hinv _ c hc
    by_cases h : temp.isEmpty
    · simp [splitLongAux, h] at hc
    · simp only [splitLongAux, h, Bool.false_eq_true, if_false,
        List.mem_singleton] at hc
      subst hc
      exact emit temp tt cid hinv (by simpa using h)
  | cons w rest ih =>
    intro temp tt cid hinv hws c hc
    have hinvw : ∀ cid2 : Nat, ([w] : List String) ≠ [] →
        cfg.tok (w ++ " ") ≤ cfg.chunk_size ∨
        ∃ v, ([w] : List String) = [v] ∧ pySplit v = [v] ∧
          cfg.chunk_size < cfg.tok (w ++ " ") := by
      intro _ _
      by_cases hcase : cfg.tok (w ++ " ") ≤ cfg.chunk_size
      · exact Or.inl hcase
      · exact Or.inr ⟨w, rfl, hws w (List.mem_cons_self w rest), by omega⟩
    have hws' : ∀ v ∈ rest, pySplit v = [v] :=
      fun v hv => hws v (List.mem_cons_of_mem w hv)
    simp only [splitLongAux] at hc
    by_cases h1 : tt + cfg.tok (w ++ " ") > cfg.chunk_size
    · rw [if_pos h1] at hc
      by_cases h2 : temp.isEmpty
      · rw [if_pos h2] at hc
        exact ih [w] (cfg.tok (w ++ " ")) cid (hinvw cid) hws' c hc
      · rw [if_neg h2, List.mem_cons] at hc
        rcases hc with hc | hc
        · subst hc
          exact emit temp tt cid hinv (by simpa using h2)
        · exact ih [w] (cfg.tok (w ++ " ")) (cid + 1) (hinvw (cid + 1)) hws' c hc
    · rw [if_neg h1] at hc
      refine ih (temp ++ [w]) (tt + cfg.tok (w ++ " ")) cid ?_ hws' c hc
      intro _
      left
      omega

theorem split_long_sentence_bound (cfg : ChunkerCfg) (s : String)
    (meta : ChunkMetadata) (cid : Nat) :
    ∀ c ∈ split_long_sentence cfg s meta cid,
      c.token_count ≤ cfg.chunk_size ∨
        (c.word_count = 1 ∧ cfg.chunk_size < c.token_count) :=
  splitLongAux_bound cfg meta (pySplit s) [] 0 cid
    (fun h => absurd rfl h) (fun w hw => pySplit_word s w hw)

theorem chunkTextAux_bound (cfg : ChunkerCfg) (meta : ChunkMetadata)
    (hj : JoinSubadditive cfg) :
    ∀ (ss cur : List String) (ct cid : Nat),
      ct ≤ cfg.chunk_size + cfg.overlap →
      ∀ c ∈ chunkTextAux cfg meta ss cur ct cid,
        c.token_count ≤ cfg.chunk_size + cfg.overlap ∨
          (c.word_count = 1 ∧ cfg.chunk_size < c.token_count) := by
  intro ss
  induction ss with
  | nil =>
    intro cur ct cid hct c hc
    by_cases h : cur.isEmpty
    · simp [chunkTextAux, h] at hc
    · simp only [chunkTextAux, h, Bool.false_eq_true, if_false,
        List.mem_singleton] at hc
      subst hc
      left
      rwa [create_chunk_token_count]
  | cons s rest ih =>
    intro cur ct cid hct c hc
    simp only [chunkTextAux] at hc
    by_cases h1 : cfg.tok s > cfg.chunk_size
    · rw [if_pos h1] at hc
      by_cases h2 : cur.isEmpty
      · rw [if_pos h2, List.mem_append] at hc
        rcases hc with hc | hc
        · rcases split_long_sentence_bound cfg s meta cid c hc with h | h
          · left
            omega
          · exact Or.inr h
        · exact ih cur ct _ hct c hc
      · rw [if_neg h2, List.mem_cons] at hc
        rcases hc with hc | hc
        · subst hc
          left
          rwa [create_chunk_token_count]
        · rw [List.mem_append] at hc
          rcases hc with hc | hc
          · rcases split_long_sentence_bound cfg s meta (cid + 1) c hc with h | h
            · left
              omega
            · exact Or.inr h
          · exact ih [] 0 _ (Nat.zero_le _) c hc
    · rw [if_neg h1] at hc
      by_cases h2 : ct + cfg.tok s > cfg.chunk_size
      · rw [if_pos h2, List.mem_cons] at hc
        rcases hc with hc | hc
        · subst hc
          left
          rwa [create_chunk_token_count]
        · refine ih _ _ _ ?_ c hc
          have hne : get_overlap_text cfg cur ct ++ [s] ≠ [] := by simp
          have hb := hj (get_overlap_text cfg cur ct ++ [s]) hne
          have hsum : ((get_overlap_text cfg cur ct ++ [s]).map cfg.tok).sum =
              ((get_overlap_text cfg cur ct).map cfg.tok).sum + cfg.tok s := by
            simp
          have hov := get_overlap_text_sum cfg cur ct
          omega
      · rw [if_neg h2] at hc
        refine ih (cur ++ [s]) (ct + cfg.tok s) cid ?_ c hc
        omega

/-- C1 counterexample: under a concrete tokenizer, chunk_size 3 and
overlap 3, the input of three 3-token sentences yields a chunk of
token_count 6 that is neither a single sentence of the input nor a
single word of it. -/
theorem chunk_token_budget_counterexample :
    ¬ (∀ c ∈ chunk_text cexCfg cexText cexMeta,
        c.token_count ≤ cexCfg.chunk_size ∨
        (∃ s ∈ split_text_by_sentences cexText,
          c.text = s ∧ cexCfg.chunk_size < cexCfg.tok s) ∨
        (∃ w ∈ pySplit cexText, c.text = w ∧ cexCfg.chunk_size < cexCfg.tok w)) := by
  decide

/-- C1 amended: for a tokenizer that is subadditive over space-joins,
every chunk's token_count is at most chunk_size + overlap, except
chunks holding a single word whose own count exceeds chunk_size; an
overlap-seeded buffer can thus legitimately exceed chunk_size by up to
overlap tokens. -/
theorem chunk_token_budget_amended (cfg : ChunkerCfg) (text : String)
    (meta : ChunkMetadata) (hj : JoinSubadditive cfg) :
    ∀ c ∈ chunk_text cfg text meta,
      c.token_count ≤ cfg.chunk_size + cfg.overlap ∨
        (c.word_count = 1 ∧ cfg.chunk_size < c.token_count) :=
  chunkTextAux_bound cfg meta hj (split_text_by_sentences text) [] 0 0
    (Nat.zero_le _)

theorem dotCount_append (s t : String) :
    dotCount (s ++ t) = dotCount s + dotCount t := by
  unfold dotCount
  rw [String.data_append, List.countP_append]

theorem dotCfg_joinSubadditive : JoinSubadditive dotCfg := by
  intro l _
  induction l with
  | nil => simp [joinSp, dotCfg, dotCount]
  | cons s rest ih =>
    cases rest with
    | nil => simp [joinSp_single, dotCfg]
    | cons b rest' =>
      rw [joinSp_cons s (b :: rest') (by simp), List.map_cons, List.sum_cons]
      show dotCfg.tok (s ++ " " ++ joinSp (b :: rest')) ≤ _
      show dotCount (s ++ " " ++ joinSp (b :: rest')) ≤ _
      rw [dotCount_append, dotCount_append]
      have : dotCount " " = 0 := by decide
      have hih : dotCount (joinSp (b :: rest')) ≤
          ((b :: rest').map dotCfg.tok).sum := ih (by simp)
      show _ ≤ dotCount s + ((b :: rest').map dotCfg.tok).sum
      omega

/-- Witness for chunk_token_budget_amended at a concrete subadditive
tokenizer and input. -/
theorem chunk_token_budget_amended_witness :
    JoinSubadditive dotCfg ∧
    ∀ c ∈ chunk_text dotCfg dotText cexMeta,
      c.token_count ≤ dotCfg.chunk_size + dotCfg.overlap ∨
        (c.word_count = 1 ∧ dotCfg.chunk_size < c.token_count) :=
  ⟨dotCfg_joinSubadditive,
   chunk_token_budget_amended dotCfg dotText cexMeta dotCfg_joinSubadditive⟩

/-! ## Recorded token_count vs. re-tokenized text (C9) -/

/-- C9: the recorded token_count of a chunk need not equal the
tokenizer applied to the chunk's text: under the character-count
tokenizer the word-split path records per-word counts with a trailing
space, exceeding the count of the emitted text. -/
theorem token_count_differs_from_text_count :
    ∃ c ∈ chunk_text lenCfg lenText cexMeta,
      c.token_count ≠ lenCfg.tok c.text := by
  decide

/-! ## Overlap carried into the next chunk (C5) -/

/-- Whatever follows, a non-empty buffer is eventually emitted as a
chunk whose sentence list extends the current buffer, and that chunk
is the next one emitted. -/
theorem chunkTextAux_first (cfg : ChunkerCfg) (meta : ChunkMetadata) :
    ∀ (ss cur : List String) (ct cid : Nat), cur ≠ [] →
      ∃ ext tc tail, chunkTextAux cfg meta ss cur ct cid =
        create_chunk (cur ++ ext) cid meta tc :: tail := by
  intro ss
  induction ss with
  | nil =>
    intro cur ct cid hcur
    refine ⟨[], ct, [], ?_⟩
    simp only [chunkTextAux, List.isEmpty_eq_true, hcur, if_false, List.append_nil]
  | cons s rest ih =>
    intro cur ct cid hcur
    simp only [chunkTextAux]
    by_cases h1 : cfg.tok s > cfg.chunk_size
    · rw [if_pos h1]
      have h2 : cur.isEmpty = false := by simpa using hcur
      rw [h2]
      simp only [Bool.false_eq_true, if_false]
      exact ⟨[], ct,
        split_long_sentence cfg s meta (cid + 1) ++
          chunkTextAux cfg meta rest [] 0
            (cid + 1 + (split_long_sentence cfg s meta (cid + 1)).length),
        by rw [List.append_nil]⟩
    · rw [if_neg h1]
      by_cases h2 : ct + cfg.tok s > cfg.chunk_size
      · rw [if_pos h2]
        exact ⟨[], ct, _, by rw [List.append_nil]⟩
      · rw [if_neg h2]
        rcases ih (cur ++ [s]) (ct + cfg.tok s) cid (by simp) with ⟨ext, tc, tail, heq⟩
        exact ⟨[s] ++ ext, tc, tail, by rw [heq, List.append_assoc]⟩

/-- C5: at a flush forced by a sentence that would overflow the budget
(the normal, non-word-split path), the buffer is emitted as a chunk,
the overlap tail seeded into the next buffer is a suffix of that
buffer with token sum at most overlap, and its space-joined text is a
prefix of the text of the next emitted chunk. -/
theorem overlap_tail_leads_next_chunk (cfg : ChunkerCfg) (meta : ChunkMetadata)
    (ss cur : List String) (ct cid : Nat) (s : String) (hcur : cur ≠ [])
    (hst : ¬ cfg.tok s > cfg.chunk_size) (hover : ct + cfg.tok s > cfg.chunk_size) :
    ∃ c2 tail, chunkTextAux cfg meta (s :: ss) cur ct cid =
        create_chunk cur cid meta ct :: c2 :: tail ∧
      (∃ m, get_overlap_text cfg cur ct = cur.drop m) ∧
      ((get_overlap_text cfg cur ct).map cfg.tok).sum ≤ cfg.overlap ∧
      (joinSp (get_overlap_text cfg cur ct)).data <+: c2.text.data := by
  have hstep : chunkTextAux cfg meta (s :: ss) cur ct cid =
      create_chunk cur cid meta ct ::
        chunkTextAux cfg meta ss (get_overlap_text cfg cur ct ++ [s])
          (cfg.tok (joinSp (get_overlap_text cfg cur ct ++ [s]))) (cid + 1) := by
    simp only [chunkTextAux]
    rw [if_neg hst, if_pos hover]
  rcases chunkTextAux_first cfg meta ss (get_overlap_text cfg cur ct ++ [s])
      (cfg.tok (joinSp (get_overlap_text cfg cur ct ++ [s]))) (cid + 1)
      (by simp) with ⟨ext, tc, tail, hfirst⟩
  refine ⟨create_chunk ((get_overlap_text cfg cur ct ++ [s]) ++ ext) (cid + 1)
      meta tc, tail, ?_, get_overlap_text_suffix cfg cur ct,
    get_overlap_text_sum cfg cur ct, ?_⟩
  · rw [hstep, hfirst]
  · rw [create_chunk_text, List.append_assoc]
    exact joinSp_prefix (get_overlap_text cfg cur ct) ([s] ++ ext)

/-- Witness for overlap_tail_leads_next_chunk at a concrete flush. -/
theorem overlap_tail_leads_next_chunk_witness :
    (["x x x."] : List String) ≠ [] ∧
    ¬ cexCfg.tok "x x x." > cexCfg.chunk_size ∧
    3 + cexCfg.tok "x x x." > cexCfg.chunk_size ∧
    ∃ c2 tail, chunkTextAux cexCfg cexMeta ["x x x."] ["x x x."] 3 0 =
        create_chunk ["x x x."] 0 cexMeta 3 :: c2 :: tail ∧
      (∃ m, get_overlap_text cexCfg ["x x x."] 3 = (["x x x."] : List String).drop m) ∧
      ((get_overlap_text cexCfg ["x x x."] 3).map cexCfg.tok).sum ≤ cexCfg.overlap ∧
      (joinSp (get_overlap_text cexCfg ["x x x."] 3)).data <+: c2.text.data :=
  ⟨by decide, by decide, by decide,
   overlap_tail_leads_next_chunk cexCfg cexMeta [] ["x x x."] 3 0 "x x x."
     (by decide) (by decide) (by decide)⟩

/-! ## Batch processor: error path (C2) -/


theorem mem_setInsertMany (a : String) : ∀ (new s : List String),
    a ∈ setInsertMany s new ↔ a ∈ s ∨ a ∈ new := by
  intro new
  induction new with
  | nil => simp [setInsertMany]
  | cons i rest ih =>
    intro s
    have hstep : setInsertMany s (i :: rest) =
        setInsertMany (if i ∈ s then s else s ++ [i]) rest := rfl
    rw [hstep, ih]
    by_cases h : i ∈ s
    · rw [if_pos h]
      constructor
      · rintro (hs | hr)
        · exact Or.inl hs
        · exact Or.inr (List.mem_cons_of_mem i hr)
      · rintro (hs | hir)
        · exact Or.inl hs
        · rcases List.mem_cons.mp hir with he | hr
          · exact Or.inl (he ▸ h)
          · exact Or.inr hr
    · rw [if_neg h]
      simp only [List.mem_append, List.mem_singleton, List.mem_cons]
      tauto

theorem mem_insertAllGroups (a : String) : ∀ (gs : List (List ChunkRec))
    (p : List String), a ∈ insertAllGroups p gs ↔
      a ∈ p ∨ ∃ b ∈ gs, a ∈ b.map (fun c => c.chunk_id) := by
  intro gs
  induction gs with
  | nil => simp [insertAllGroups]
  | cons b rest ih =>
    intro p
    have hstep : insertAllGroups p (b :: rest) =
        insertAllGroups (setInsertMany p (b.map (fun c => c.chunk_id))) rest := rfl
    rw [hstep, ih, mem_setInsertMany]
    simp only [List.mem_cons]
    constructor
    · rintro ((hp | hb) | ⟨g, hg, ha⟩)
      · exact Or.inl hp
      · exact Or.inr ⟨b, Or.inl rfl, hb⟩
      · exact Or.inr ⟨g, Or.inr hg, ha⟩
    · rintro (hp | ⟨g, hg | hg, ha⟩)
      · exact Or.inl (Or.inl hp)
      · exact Or.inl (Or.inr (hg ▸ ha))
      · exact Or.inr ⟨g, hg, ha⟩

theorem processBatchesAux_error (embed : List String → Except ε (List Vec))
    (now : Nat) (bad : List ChunkRec) (e : ε)
    (hbad : embed (bad.map (fun c => c.text)) = .error e) :
    ∀ (pre post : List (List ChunkRec)) (idx : Nat) (processed : List String)
      (acc : List (EmbeddingRecord Vec)) (file : Option Checkpoint),
      (∀ b ∈ pre, ∃ vs, embed (b.map (fun c => c.text)) = .ok vs) →
      processBatchesAux embed now (pre ++ bad :: post) idx processed acc file =
        (.error e, insertAllGroups processed pre,
         save_checkpoint (insertAllGroups processed pre) (idx + pre.length) now) := by
  intro pre
  induction pre with
  | nil =>
    intro post idx processed acc file _
    simp only [List.nil_append, processBatchesAux, hbad, insertAllGroups,
      List.foldl_nil, List.length_nil, Nat.add_zero]
  | cons b rest ih =>
    intro post idx processed acc file hpre
    rcases hpre b (List.mem_cons_self b rest) with ⟨vs, hb⟩
    have hrest : ∀ g ∈ rest, ∃ vs, embed (g.map (fun c => c.text)) = .ok vs :=
      fun g hg => hpre g (List.mem_cons_of_mem b hg)
    have hstep : processBatchesAux embed now ((b :: rest) ++ bad :: post)
        idx processed acc file =
        processBatchesAux embed now (rest ++ bad :: post) (idx + 1)
          (setInsertMany processed (b.map (fun c => c.chunk_id)))
          (acc ++ (b.zip vs).map (fun p =>
            { chunk_id := p.1.chunk_id, embedding := p.2,
              source_page := p.1.source_page, token_count := p.1.token_count }))
          (if (idx + 1) % 10 = 0 then
            save_checkpoint (setInsertMany processed (b.map (fun c => c.chunk_id)))
              (idx + 1) now
           else file) := by
      simp only [List.cons_append, processBatchesAux, hb]
      rfl
    rw [hstep, ih post (idx + 1) _ _ _ hrest]
    have harith : idx + 1 + rest.length = idx + (b :: rest).length := by
      simp only [List.length_cons]
      omega
    have hfold : insertAllGroups
        (setInsertMany processed (b.map (fun c => c.chunk_id))) rest =
        insertAllGroups processed (b :: rest) := rfl
    rw [harith, hfold]

/-- C2: if the provider succeeds on the first groups and fails
terminally on a later group, process_all_chunks saves a checkpoint
holding exactly the initially processed ids plus the ids of the
completed groups (none of the failing group), records the failing
group index, and propagates the error. -/
theorem error_checkpoint_and_propagation {ε Vec : Type}
    (embed : List String → Except ε (List Vec)) (all_chunks : List ChunkRec)
    (batch_size : Nat) (resume : Bool) (now : Nat) (file : Option Checkpoint)
    (pre post : List (List ChunkRec)) (bad : List ChunkRec) (e : ε)
    (hslice : sliceBatches batch_size (all_chunks.filter (fun c =>
        c.chunk_id ∉ (if resume then load_checkpoint file
          else defaultCheckpoint).processed_chunk_ids.dedup)) = pre ++ bad :: post)
    (hpre : ∀ b ∈ pre, ∃ vs, embed (b.map (fun c => c.text)) = .ok vs)
    (hbad : embed (bad.map (fun c => c.text)) = .error e) :
    ∃ ck, process_all_chunks embed all_chunks batch_size resume now file =
        (.error e, some ck) ∧
      ck.last_batch = pre.length ∧
      ∀ a, a ∈ ck.processed_chunk_ids ↔
        (a ∈ (if resume then load_checkpoint file
            else defaultCheckpoint).processed_chunk_ids ∨
          ∃ b ∈ pre, a ∈ b.map (fun c => c.chunk_id)) := by
  set ck0 := if resume then load_checkpoint file else defaultCheckpoint with hck0
  set pending := all_chunks.filter (fun c =>
      c.chunk_id ∉ ck0.processed_chunk_ids.dedup) with hpending
  have hne : pending.isEmpty = false := by
    rcases hp : pending.isEmpty with h | h
    · rfl
    · exfalso
      have : pending = [] := by simpa using hp
      rw [this] at hslice
      have : sliceBatches batch_size ([] : List ChunkRec) = [] := rfl
      rw [this] at hslice
      exact List.cons_ne_nil bad post (List.append_eq_nil.mp hslice.symm).2
  have hloop := processBatchesAux_error embed now bad e hbad pre post 0
      ck0.processed_chunk_ids.dedup [] file hpre
  refine ⟨{ processed_chunk_ids := insertAllGroups ck0.processed_chunk_ids.dedup pre,
            last_batch := 0 + pre.length, timestamp := some now }, ?_, by simp, ?_⟩
  · simp only [process_all_chunks]
    rw [← hck0, ← hpending, hne]
    simp only [Bool.false_eq_true, if_false]
    rw [hslice, hloop]
    rfl
  · intro a
    simp only [mem_insertAllGroups a pre ck0.processed_chunk_ids.dedup,
      List.mem_dedup]


/-- Witness for error_checkpoint_and_propagation: the checkpoint holds
exactly group 1 (c0..c9), not c10, and last_batch is 1. -/
theorem error_checkpoint_and_propagation_witness :
    ∃ ck, process_all_chunks wEmbed wChunks 10 false 0 none = (.error (), some ck) ∧
      ck.last_batch = 1 ∧
      ∀ a, a ∈ ck.processed_chunk_ids ↔
        (a ∈ defaultCheckpoint.processed_chunk_ids ∨
          ∃ b ∈ [wChunks.take 10], a ∈ b.map (fun c => c.chunk_id)) := by
  have h := error_checkpoint_and_propagation wEmbed wChunks 10 false 0 none
    [wChunks.take 10] [wChunks.drop 20] ((wChunks.drop 10).take 10) ()
    (by decide) ?_ ?_
  · rcases h with ⟨ck, h1, h2, h3⟩
    exact ⟨ck, h1, by simpa using h2, h3⟩
  · intro b hb
    rcases List.mem_singleton.mp hb with rfl
    exact ⟨(((wChunks.take 10)).map (fun c => c.text)).map (fun _ => 0), by decide⟩
  · decide

/-! ## Batch processor: full-coverage resume (C3) -/

/-- C3: with resume=True and every stored chunk already in the
checkpoint, process_all_chunks succeeds with no embeddings, counts
reflecting full coverage, an unchanged checkpoint file, and no
dependence on the embedding collaborator. -/
theorem resume_full_coverage_noop {ε Vec : Type}
    (embed1 embed2 : List String → Except ε (List Vec))
    (all_chunks : List ChunkRec) (batch_size now : Nat) (file : Option Checkpoint)
    (h : ∀ c ∈ all_chunks,
      c.chunk_id ∈ (load_checkpoint file).processed_chunk_ids) :
    process_all_chunks embed1 all_chunks batch_size true now file =
      (.ok { embeddings := [], total_chunks := all_chunks.length,
             processed := all_chunks.length,
             skipped := (all_chunks.length : Int), embeddings_generated := 0 },
       file) ∧
    process_all_chunks embed1 all_chunks batch_size true now file =
      process_all_chunks embed2 all_chunks batch_size true now file := by
  have hp : all_chunks.filter (fun c =>
      c.chunk_id ∉ (load_checkpoint file).processed_chunk_ids.dedup) = [] := by
    rw [List.filter_eq_nil_iff]
    intro c hc
    simp only [decide_not, Bool.not_eq_true', decide_eq_false_iff_not, not_not,
      List.mem_dedup]
    exact h c hc
  have key : ∀ embed : List String → Except ε (List Vec),
      process_all_chunks embed all_chunks batch_size true now file =
        (.ok { embeddings := [], total_chunks := all_chunks.length,
               processed := all_chunks.length,
               skipped := (all_chunks.length : Int), embeddings_generated := 0 },
         file) := by
    intro embed
    simp only [process_all_chunks, if_true]
    rw [hp]
    rfl
  exact ⟨key embed1, (key embed1).trans (key embed2).symm⟩

/-- Witness for resume_full_coverage_noop: a stored chunk already in
the checkpoint, with two different providers (one always failing). -/
theorem resume_full_coverage_noop_witness :
    process_all_chunks (fun _ => .error ())
        [{ chunk_id := "a", text := "a", source_page := none, token_count := 1 }] 16 true 5
        (some { processed_chunk_ids := ["a"], last_batch := 1, timestamp := some 3 }) =
      (.ok { embeddings := ([] : List (EmbeddingRecord Nat)), total_chunks := 1,
             processed := 1, skipped := 1, embeddings_generated := 0 },
       some { processed_chunk_ids := ["a"], last_batch := 1, timestamp := some 3 }) ∧
    process_all_chunks (fun _ => .error ())
        [{ chunk_id := "a", text := "a", source_page := none, token_count := 1 }] 16 true 5
        (some { processed_chunk_ids := ["a"], last_batch := 1, timestamp := some 3 }) =
      process_all_chunks (fun ts => .ok (ts.map (fun _ => 0)))
        [{ chunk_id := "a", text := "a", source_page := none, token_count := 1 }] 16 true 5
        (some { processed_chunk_ids := ["a"], last_batch := 1, timestamp := some 3 }) :=
  resume_full_coverage_noop (fun _ => .error ()) (fun ts => .ok (ts.map (fun _ => 0)))
    [{ chunk_id := "a", text := "a", source_page := none, token_count := 1 }] 16 5
    (some { processed_chunk_ids := ["a"], last_batch := 1, timestamp := some 3 })
    (by decide)

/-! ## Batch processor: successful run covers pending in order (C6) -/

theorem processBatchesAux_ok (embed : List String → Except ε (List Vec))
    (now : Nat)
    (hembed : ∀ ts, ∃ vs, embed ts = .ok vs ∧ vs.length = ts.length) :
    ∀ (batches : List (List ChunkRec)) (idx : Nat) (processed : List String)
      (acc : List (EmbeddingRecord Vec)) (file : Option Checkpoint),
      ∃ out p2 f2,
        processBatchesAux embed now batches idx processed acc file =
          (.ok out, p2, f2) ∧
        out.map (fun er => er.chunk_id) =
          acc.map (fun er => er.chunk_id) ++
            batches.flatten.map (fun c => c.chunk_id) := by
  intro batches
  induction batches with
  | nil =>
    intro idx processed acc file
    exact ⟨acc, processed, file, rfl, by simp⟩
  | cons batch rest ih =>
    intro idx processed acc file
    rcases hembed (batch.map (fun c => c.text)) with ⟨vs, hok, hlen⟩
    have hstep : processBatchesAux embed now (batch :: rest) idx processed acc file =
        processBatchesAux embed now rest (idx + 1)
          (setInsertMany processed (batch.map (fun c => c.chunk_id)))
          (acc ++ (batch.zip vs).map (fun p =>
            { chunk_id := p.1.chunk_id, embedding := p.2,
              source_page := p.1.source_page, token_count := p.1.token_count }))
          (if (idx + 1) % 10 = 0 then
            save_checkpoint (setInsertMany processed (batch.map (fun c => c.chunk_id)))
              (idx + 1) now
           else file) := by
      simp only [processBatchesAux, hok]
    rcases ih (idx + 1)
        (setInsertMany processed (batch.map (fun c => c.chunk_id)))
        (acc ++ (batch.zip vs).map (fun p =>
          { chunk_id := p.1.chunk_id, embedding := p.2,
            source_page := p.1.source_page, token_count := p.1.token_count }))
        (if (idx + 1) % 10 = 0 then
          save_checkpoint (setInsertMany processed (batch.map (fun c => c.chunk_id)))
            (idx + 1) now
         else file) with ⟨out, p2, f2, heq, hmap⟩
    refine ⟨out, p2, f2, hstep.trans heq, ?_⟩
    rw [hmap, List.map_append, List.flatten_cons, List.map_append]
    rw [List.append_assoc]
    congr 2
    rw [List.map_map]
    have hzip : ((batch.zip vs).map (fun p => p.1)).map (fun c => c.chunk_id) =
        batch.map (fun c => c.chunk_id) := by
      rw [List.map_fst_zip]
      rw [hlen, List.length_map]
    rw [← hzip, List.map_map]
    rfl

theorem sliceBatches_flatten_aux (bs : Nat) (hbs : 0 < bs) :
    ∀ (n : Nat) (l : List α), l.length ≤ n → (sliceBatches bs l).flatten = l := by
  intro n
  induction n with
  | zero =>
    intro l hl
    have : l = [] := List.eq_nil_of_length_eq_zero (Nat.le_zero.mp hl)
    subst this
    rfl
  | succ n ih =>
    intro l hl
    cases l with
    | nil => rfl
    | cons a l' =>
      rw [sliceBatches_eq]
      simp only [List.isEmpty_cons, Bool.false_eq_true, if_false]
      rw [if_neg (by omega), List.flatten_cons]
      have hd : ((a :: l').drop bs).length ≤ n := by
        simp only [List.length_drop, List.length_cons]
        simp only [List.length_cons] at hl
        omega
      rw [ih ((a :: l').drop bs) hd]
      exact List.take_append_drop bs (a :: l')

theorem sliceBatches_flatten (bs : Nat) (hbs : 0 < bs) (l : List α) :
    (sliceBatches bs l).flatten = l :=
  sliceBatches_flatten_aux bs hbs l.length l rfl.le

/-- C6: when the provider returns one vector per input text, a run of
process_all_chunks succeeds and its embeddings carry exactly the
pending chunks' ids, in the order of all_chunks restricted to the
pending subset. -/
theorem success_embeddings_cover_pending {ε Vec : Type}
    (embed : List String → Except ε (List Vec)) (all_chunks : List ChunkRec)
    (batch_size : Nat) (resume : Bool) (now : Nat) (file : Option Checkpoint)
    (hbs : 0 < batch_size)
    (hembed : ∀ ts, ∃ vs, embed ts = .ok vs ∧ vs.length = ts.length) :
    ∃ r, (process_all_chunks embed all_chunks batch_size resume now file).1 =
        .ok r ∧
      r.embeddings.map (fun er => er.chunk_id) =
        (all_chunks.filter (fun c => c.chunk_id ∉
          (if resume then load_checkpoint file
            else defaultCheckpoint).processed_chunk_ids.dedup)).map
          (fun c => c.chunk_id) := by
  set ck0 := if resume then load_checkpoint file else defaultCheckpoint with hck0
  set pending := all_chunks.filter (fun c =>
      c.chunk_id ∉ ck0.processed_chunk_ids.dedup) with hpending
  by_cases hp : pending.isEmpty
  · have hpnil : pending = [] := by simpa using hp
    refine ⟨{ embeddings := [], total_chunks := all_chunks.length,
              processed := all_chunks.length,
              skipped := (all_chunks.length : Int), embeddings_generated := 0 },
            ?_, ?_⟩
    · simp only [process_all_chunks]
      rw [← hck0, ← hpending, hp]
      rfl
    · rw [hpnil]
      rfl
  · have hp' : pending.isEmpty = false := by simpa using hp
    rcases processBatchesAux_ok embed now hembed (sliceBatches batch_size pending)
        0 ck0.processed_chunk_ids.dedup [] file with ⟨out, p2, f2, heq, hmap⟩
    refine ⟨{ embeddings := out, total_chunks := all_chunks.length,
              processed := out.length,
              skipped := (p2.length : Int) - (out.length : Int),
              embeddings_generated := out.length }, ?_, ?_⟩
    · simp only [process_all_chunks]
      rw [← hck0, ← hpending, hp']
      simp only [Bool.false_eq_true, if_false]
      rw [heq]
    · rw [hmap, sliceBatches_flatten batch_size hbs pending]
      simp

/-- Witness for success_embeddings_cover_pending with an
always-succeeding provider over 25 stored chunks. -/
theorem success_embeddings_cover_pending_witness :
    ∃ r, (process_all_chunks
        (fun ts => (.ok (ts.map (fun _ => (0 : Nat))) : Except Unit (List Nat)))
        wChunks 10 false 0 none).1 = .ok r ∧
      r.embeddings.map (fun er => er.chunk_id) =
        (wChunks.filter (fun c => c.chunk_id ∉
          (if false then load_checkpoint none
            else defaultCheckpoint).processed_chunk_ids.dedup)).map
          (fun c => c.chunk_id) :=
  success_embeddings_cover_pending
    (fun ts => (.ok (ts.map (fun _ => (0 : Nat))) : Except Unit (List Nat)))
    wChunks 10 false 0 none (by decide)
    (fun ts => ⟨ts.map (fun _ => 0), rfl, by simp⟩)

/-! ## Checkpoint round-trip (C7) -/

/-- C7: save_checkpoint followed by load_checkpoint returns exactly
the ids, batch number and timestamp written. -/
theorem checkpoint_roundtrip (ids : List String) (batch_num now : Nat) :
    load_checkpoint (save_checkpoint ids batch_num now) =
      { processed_chunk_ids := ids, last_batch := batch_num,
        timestamp := some now } := rfl

/-! ## Qdrant sequential point ids (C8) -/

theorem upsertPoints_id_map {Vec : Type} (batch : List (EmbeddingRecord Vec))
    (total : Nat) :
    (batch.enum.map (fun p =>
      ({ id := total + p.1, vector := p.2.embedding,
         payload_chunk_id := p.2.chunk_id,
         payload_source_page := p.2.source_page,
         payload_token_count := p.2.token_count } : UploadPoint Vec))).map
        (fun p => p.id) =
      (List.range batch.length).map (fun i => total + i) := by
  rw [List.map_map]
  have h1 : List.map ((fun p : UploadPoint Vec => p.id) ∘ (fun p :
      Nat × EmbeddingRecord Vec =>
      ({ id := total + p.1, vector := p.2.embedding,
         payload_chunk_id := p.2.chunk_id,
         payload_source_page := p.2.source_page,
         payload_token_count := p.2.token_count } : UploadPoint Vec)))
      batch.enum =
      List.map (fun p : Nat × EmbeddingRecord Vec => total + p.1) batch.enum :=
    List.map_congr_left (fun p _ => rfl)
  rw [h1, ← List.enum_map_fst batch, List.map_map]
  exact List.map_congr_left (fun p _ => rfl)

theorem upsertPoints_payload_map {Vec : Type} (batch : List (EmbeddingRecord Vec))
    (total : Nat) :
    (batch.enum.map (fun p =>
      ({ id := total + p.1, vector := p.2.embedding,
         payload_chunk_id := p.2.chunk_id,
         payload_source_page := p.2.source_page,
         payload_token_count := p.2.token_count } : UploadPoint Vec))).map
        (fun p => p.payload_chunk_id) =
      batch.map (fun er => er.chunk_id) := by
  rw [List.map_map]
  have h1 : List.map ((fun p : UploadPoint Vec => p.payload_chunk_id) ∘ (fun p :
      Nat × EmbeddingRecord Vec =>
      ({ id := total + p.1, vector := p.2.embedding,
         payload_chunk_id := p.2.chunk_id,
         payload_source_page := p.2.source_page,
         payload_token_count := p.2.token_count } : UploadPoint Vec)))
      batch.enum =
      List.map (fun p : Nat × EmbeddingRecord Vec => p.2.chunk_id) batch.enum :=
    List.map_congr_left (fun p _ => rfl)
  rw [h1]
  conv_rhs => rw [← List.enum_map_snd batch]
  rw [List.map_map]
  exact List.map_congr_left (fun p _ => rfl)

theorem upsertBatchesAux_spec {Vec : Type} :
    ∀ (batches : List (List (EmbeddingRecord Vec))) (total : Nat)
      (acc : List (UploadPoint Vec)),
      (upsertBatchesAux batches total acc).1.map (fun p => p.id) =
        acc.map (fun p => p.id) ++
          (List.range batches.flatten.length).map (fun i => total + i) ∧
      (upsertBatchesAux batches total acc).1.map (fun p => p.payload_chunk_id) =
        acc.map (fun p => p.payload_chunk_id) ++
          batches.flatten.map (fun er => er.chunk_id) ∧
      (upsertBatchesAux batches total acc).2 = total + batches.flatten.length := by
  intro batches
  induction batches with
  | nil =>
    intro total acc
    refine ⟨by simp [upsertBatchesAux], by simp [upsertBatchesAux], ?_⟩
    simp [upsertBatchesAux]
  | cons batch rest ih =>
    intro total acc
    have hpts : (batch.enum.map (fun p =>
        ({ id := total + p.1, vector := p.2.embedding,
           payload_chunk_id := p.2.chunk_id,
           payload_source_page := p.2.source_page,
           payload_token_count := p.2.token_count } : UploadPoint Vec))).length =
        batch.length := by
      rw [List.length_map, List.enum_length]
    have hstep : upsertBatchesAux (batch :: rest) total acc =
        upsertBatchesAux rest (total + batch.length)
          (acc ++ batch.enum.map (fun p =>
            { id := total + p.1, vector := p.2.embedding,
              payload_chunk_id := p.2.chunk_id,
              payload_source_page := p.2.source_page,
              payload_token_count := p.2.token_count })) := by
      simp only [upsertBatchesAux, hpts]
    rcases ih (total + batch.length)
        (acc ++ batch.enum.map (fun p =>
          { id := total + p.1, vector := p.2.embedding,
            payload_chunk_id := p.2.chunk_id,
            payload_source_page := p.2.source_page,
            payload_token_count := p.2.token_count })) with ⟨hid, hpay, htot⟩
    rw [hstep]
    refine ⟨?_, ?_, ?_⟩
    · rw [hid, List.map_append, upsertPoints_id_map, List.append_assoc]
      congr 1
      rw [List.flatten_cons, List.length_append, List.range_add, List.map_append,
        List.map_map]
      congr 1
      apply List.map_congr_left
      intro i _
      simp only [Function.comp_apply]
      omega
    · rw [hpay, List.map_append, upsertPoints_payload_map, List.append_assoc]
      congr 1
      rw [List.flatten_cons, List.map_append]
    · rw [htot, List.flatten_cons, List.length_append]
      omega

/-- C8: within one call of upsert_embeddings the i-th record receives
point id i regardless of its chunk_id, the returned total is the input
length, and two separate non-empty calls both assign id 0, so their id
ranges overlap. -/
theorem upsert_point_ids_sequential_per_call {Vec : Type}
    (d1 d2 : List (EmbeddingRecord Vec)) (batch_size : Nat)
    (hbs : 0 < batch_size) :
    ((upsert_embeddings d1 batch_size).1.map (fun p => p.id) =
        List.range d1.length ∧
      (upsert_embeddings d1 batch_size).1.map (fun p => p.payload_chunk_id) =
        d1.map (fun er => er.chunk_id) ∧
      (upsert_embeddings d1 batch_size).2 = d1.length) ∧
    (d1 ≠ [] → d2 ≠ [] →
      0 ∈ (upsert_embeddings d1 batch_size).1.map (fun p => p.id) ∧
      0 ∈ (upsert_embeddings d2 batch_size).1.map (fun p => p.id)) := by
  have main : ∀ d : List (EmbeddingRecord Vec),
      (upsert_embeddings d batch_size).1.map (fun p => p.id) =
          List.range d.length ∧
        (upsert_embeddings d batch_size).1.map (fun p => p.payload_chunk_id) =
          d.map (fun er => er.chunk_id) ∧
        (upsert_embeddings d batch_size).2 = d.length := by
    intro d
    rcases upsertBatchesAux_spec (sliceBatches batch_size d) 0 [] with ⟨hid, hpay, htot⟩
    unfold upsert_embeddings
    rw [sliceBatches_flatten batch_size hbs d] at hid hpay htot
    refine ⟨?_, ?_, ?_⟩
    · rw [hid]
      simp
    · rw [hpay]
      simp
    · rw [htot]
      simp
  refine ⟨main d1, ?_⟩
  intro h1 h2
  constructor
  · rw [(main d1).1, List.mem_range]
    exact List.length_pos.mpr h1
  · rw [(main d2).1, List.mem_range]
    exact List.length_pos.mpr h2


/-- Witness for upsert_point_ids_sequential_per_call on two concrete
non-empty calls. -/
theorem upsert_point_ids_sequential_per_call_witness :
    ((upsert_embeddings [uA] 100).1.map (fun p => p.id) = List.range 1 ∧
      (upsert_embeddings [uA] 100).1.map (fun p => p.payload_chunk_id) =
        [uA].map (fun er => er.chunk_id) ∧
      (upsert_embeddings [uA] 100).2 = 1) ∧
    (([uA] : List (EmbeddingRecord Nat)) ≠ [] →
      ([uB] : List (EmbeddingRecord Nat)) ≠ [] →
      0 ∈ (upsert_embeddings [uA] 100).1.map (fun p => p.id) ∧
      0 ∈ (upsert_embeddings [uB] 100).1.map (fun p => p.id)) :=
  upsert_point_ids_sequential_per_call [uA] [uB] 100 (by decide)

end AdvancedRAG
